import Mathlib

/-
Verification of the PageRank engine (pagerank.py) against its
natural-language specification.

Shallow embedding conventions:
- a Page is its identifier string;
- a Python dict is an association list in insertion order (`Dict`,
  `Corpus`); dict assignment is `dictSet` (update in place, else append),
  dict lookup is `dget?` (`none` models a KeyError);
- real numbers are embedded as exact rationals `ℚ`;
- functions that can raise in Python return `Option`;
- the module-level random generator consumed by `random.sample` /
  `random.choices` is an explicit `Rng` value: a start index and a
  stream of uniform draws in [0,1).
-/

abbrev Page := String

abbrev Dict := List (Page × ℚ)

abbrev Corpus := List (Page × List Page)

/-- Keys of a Python dict, in insertion order. -/
def keysOf {β : Type} (m : List (Page × β)) : List Page :=
  m.map Prod.fst

/-- Dict lookup: `m[k]`; `none` models a `KeyError`. -/
def dget? {β : Type} (k : Page) : List (Page × β) → Option β
  | [] => none
  | e :: rest => if e.1 = k then some e.2 else dget? k rest

/-- Dict lookup with default 0, used only where the key is known present. -/
def dget (m : Dict) (k : Page) : ℚ :=
  (dget? k m).getD 0

/-- Dict assignment `m[k] = v`: update in place if the key exists,
otherwise append at the end (Python insertion order). -/
def dictSet : Dict → Page → ℚ → Dict
  | [], k, v => [(k, v)]
  | e :: rest, k, v => if e.1 = k then (k, v) :: rest else e :: dictSet rest k v

/-- Sum of a dict's values, `sum(m.values())`. -/
def sumValues (m : Dict) : ℚ :=
  (m.map Prod.snd).sum

/-- Loop body of `transition_model`: one step of the `for next_page in
corpus.keys()` loop building `tramod`, for current page outlinks `outl`
and corpus size `n`.  The inner membership tests on `tramod.keys()`
mirror lines 65-76 of the source. -/
def tmStep (outl : List Page) (n : Nat) (damping_factor : ℚ)
    (tramod : Dict) (next_page : Page) : Dict :=
  if next_page ∈ outl then
    match dget? next_page tramod with
    | some v =>
        dictSet tramod next_page
          (v + damping_factor * (1 / (outl.length : ℚ)) +
            (1 - damping_factor) * (1 / (n : ℚ)))
    | none =>
        dictSet tramod next_page
          (damping_factor * (1 / (outl.length : ℚ)) +
            (1 - damping_factor) * (1 / (n : ℚ)))
  else
    match dget? next_page tramod with
    | some _ =>
        dictSet tramod next_page ((1 - damping_factor) * (1 / (n : ℚ)))
    | none =>
        dictSet tramod next_page ((1 - damping_factor) * (1 / (n : ℚ)))

/-- `transition_model(corpus, page, damping_factor)` (lines 52-78):
build the next-page distribution by looping over all corpus keys;
`corpus[page]` raising `KeyError` is modelled by `none`. -/
def transition_model (corpus : Corpus) (page : Page)
    (damping_factor : ℚ) : Option Dict :=
  match dget? page corpus with
  | none => none
  | some linked_pages =>
      some ((keysOf corpus).foldl
        (tmStep linked_pages corpus.length damping_factor) [])

/-- The value `transition_model` ends up assigning to key `k`
(closed form of one pass of `tmStep` over fresh keys). -/
def tmVal (outl : List Page) (n : Nat) (damping_factor : ℚ) (k : Page) : ℚ :=
  if k ∈ outl then
    damping_factor * (1 / (outl.length : ℚ)) +
      (1 - damping_factor) * (1 / (n : ℚ))
  else
    (1 - damping_factor) * (1 / (n : ℚ))

/-- Lookup inside an optional dict. -/
def olookup (q : Page) (o : Option Dict) : Option ℚ :=
  o.bind (fun m => dget? q m)

/-- Two-page corpus a <-> b. -/
def corpus2 : Corpus := [("a", ["b"]), ("b", ["a"])]

/-- Corpus with a dangling page: a has no outlinks, b links to a. -/
def corpusD : Corpus := [("a", []), ("b", ["a"])]

/-- Three-page corpus: a -> b, b -> a, c -> a. -/
def corpus3 : Corpus := [("a", ["b"]), ("b", ["a"]), ("c", ["a"])]

/-- `iterative_sum(distribution, corpus)` (lines 151-157): sum of
`distribution[page] / len(corpus[page])`; `none` models the
`ZeroDivisionError` when a page has no outlinks and the `KeyError`
when a page is not a corpus key. -/
def iterative_sum (distribution : Dict) (corpus : Corpus) : Option ℚ :=
  distribution.foldl
    (fun s pv =>
      match s, dget? pv.1 corpus with
      | some acc, some outl =>
          if outl.length = 0 then none
          else some (acc + pv.2 / (outl.length : ℚ))
      | _, _ => none)
    (some 0)

/-- `[ipage for ipage in corpus if page in corpus[ipage]]` (line 137):
the pages whose outlink set contains `page`. -/
def linkedPages (corpus : Corpus) (page : Page) : List Page :=
  (corpus.filter (fun e => page ∈ e.2)).map Prod.fst

/-- Body of the `for page in iterprob.keys()` loop of `iterate_pagerank`
(lines 136-139), updating `iterprob[page]` in place. -/
def iteratePage (corpus : Corpus) (damping_factor : ℚ)
    (iterprob : Dict) (page : Page) : Option Dict :=
  let distribution := iterprob.filter (fun kv => kv.1 ∈ linkedPages corpus page)
  match iterative_sum distribution corpus with
  | none => none
  | some s =>
      some (dictSet iterprob page
        ((1 - damping_factor) / (corpus.length : ℚ) + damping_factor * s))

/-- One full in-place sweep over `iterprob.keys()` (lines 136-139).
The accumulator is the shared, mutated `iterprob` dict: later pages read
values already overwritten earlier in the same sweep. -/
def sweepAll (corpus : Corpus) (damping_factor : ℚ) (iterprob : Dict) : Option Dict :=
  (keysOf iterprob).foldlM
    (fun acc page => iteratePage corpus damping_factor acc page) iterprob

/-- Python `max` over a list; `none` models the `ValueError` on an
empty sequence. -/
def maxList : List ℚ → Option ℚ
  | [] => none
  | x :: xs => some (xs.foldl max x)

/-- The `while max_iterchange >= 0.001` loop of `iterate_pagerank`
(lines 131-146), with explicit fuel standing for the unbounded while
loop; `none` when fuel runs out or a library error is raised.  The
initial `max_iterchange = 999` makes the body run at least once, which
the fuel-successor case mirrors. -/
def iterate_loop (corpus : Corpus) (damping_factor : ℚ) :
    Nat → Dict → Option Dict
  | 0, _ => none
  | fuel + 1, iterprob =>
      let old_iterprob := iterprob
      match sweepAll corpus damping_factor iterprob with
      | none => none
      | some p1 =>
          let total := sumValues p1
          match p1.mapM (fun kv =>
              if total = 0 then none else some (kv.1, kv.2 / total)) with
          | none => none
          | some p2 =>
              match maxList ((keysOf p2).map
                  (fun page => |dget p2 page - dget old_iterprob page|)) with
              | none => none
              | some max_iterchange =>
                  if max_iterchange ≥ 0.001 then
                    iterate_loop corpus damping_factor fuel p2
                  else some p2

/-- `iterate_pagerank(corpus, damping_factor)` (lines 115-148):
ranks start at `1/len(corpus)` and the loop runs to convergence. -/
def iterate_pagerank (corpus : Corpus) (damping_factor : ℚ) (fuel : Nat) :
    Option Dict :=
  iterate_loop corpus damping_factor fuel
    (corpus.map (fun e => (e.1, 1 / (corpus.length : ℚ))))

/-- The module-level random generator state consumed by `random.sample`
and `random.choices`: the index drawn for the starting page and the
stream of uniform draws in [0,1). -/
structure Rng where
  startIdx : Nat
  draw : Nat → ℚ

/-- `iterate_pagerank` threaded through the module's random-generator
state: the function makes no `random` call (lines 115-148), so the state
is returned untouched and the result cannot depend on it. -/
def iterate_pagerank_st (corpus : Corpus) (damping_factor : ℚ) (fuel : Nat)
    (st : Rng) : Option Dict × Rng :=
  (iterate_pagerank corpus damping_factor fuel, st)

/-- Modelled from the spec: one simultaneous (Jacobi) update sweep of the
Iterative Estimator, section 4.3 — every page's new rank is computed from
the previous iteration's complete snapshot `old`, with a dangling page q
contributing `old[q]/N` to every page's sum.  Used only to compare the
specified update rule with the code's in-place sweep. -/
def sweepSimultaneous (corpus : Corpus) (damping_factor : ℚ) (old : Dict) : Dict :=
  corpus.map (fun e =>
    (e.1, (1 - damping_factor) / (corpus.length : ℚ) +
      damping_factor * ((corpus.map (fun q =>
        if q.2 = [] then dget old q.1 / (corpus.length : ℚ)
        else if e.1 ∈ q.2 then dget old q.1 / (q.2.length : ℚ)
        else 0)).sum)))

/-- Tally update of `sample_pagerank` (lines 97-101): increment the
current page's count, inserting it at 1 if absent. -/
def tallyAdd (tally : Dict) (current_page : Page) : Dict :=
  match dget? current_page tally with
  | some v => dictSet tally current_page (v + 1)
  | none => dictSet tally current_page 1

/-- Selection of `random.choices(population, weights)[0]`: scale the
uniform draw `r` by the total weight and walk the cumulative weights,
falling back to the last element (the `bisect` upper bound). -/
def pickAux : Dict → ℚ → Page
  | [], _ => ""
  | [e], _ => e.1
  | e :: e2 :: rest, target =>
      if target < e.2 then e.1 else pickAux (e2 :: rest) (target - e.2)

/-- `random.choices(list(transmod.keys()), list(transmod.values()))[0]`
(line 105) given the uniform draw `r`; `none` on an empty population. -/
def choicesPick (items : Dict) (r : ℚ) : Option Page :=
  match items with
  | [] => none
  | e :: rest => some (pickAux (e :: rest) (r * sumValues (e :: rest)))

/-- The `for i in range(n)` loop of `sample_pagerank` (lines 96-106):
tally the current page, then draw the next page from the transition
model with the i-th uniform draw. -/
def sampleLoop (corpus : Corpus) (damping_factor : ℚ) (rng : Rng) :
    Nat → Nat → Page → Dict → Option Dict
  | 0, _, _, tally => some tally
  | k + 1, i, current_page, tally =>
      let tally2 := tallyAdd tally current_page
      match transition_model corpus current_page damping_factor with
      | none => none
      | some transmod =>
          match choicesPick transmod (rng.draw i) with
          | none => none
          | some next_page =>
              sampleLoop corpus damping_factor rng k (i + 1) next_page tally2

/-- `sample_pagerank(corpus, damping_factor, n)` (lines 81-111) with the
random generator explicit: pick the starting page from the corpus keys,
run the sampling loop, then normalise every tally by `n`.  `none` models
the error `random.sample` raises on an empty corpus. -/
def sample_pagerank (corpus : Corpus) (damping_factor : ℚ) (n : Nat)
    (rng : Rng) : Option Dict :=
  match corpus with
  | [] => none
  | e :: rest =>
      let ks := keysOf (e :: rest)
      let start_page := ks.getD (rng.startIdx % ks.length) e.1
      Option.map (fun tally => tally.map (fun kv => (kv.1, kv.2 / (n : ℚ))))
        (sampleLoop (e :: rest) damping_factor rng n 0 start_page [])

/-- Initial rank dict for the two-page corpus. -/
def init2 : Dict := [("a", 1/2), ("b", 1/2)]

/-- Initial rank dict for the three-page corpus. -/
def init3 : Dict := [("a", 1/3), ("b", 1/3), ("c", 1/3)]

/-- A concrete random source: start index 0, all draws 0. -/
def rng0 : Rng := ⟨0, fun _ => 0⟩

/-- A second concrete random source: start index 1, all draws 1/2. -/
def rng1 : Rng := ⟨1, fun _ => 1/2⟩

/-! Association-list lemmas. -/

theorem keysOf_nil {β : Type} : keysOf ([] : List (Page × β)) = [] := rfl

theorem keysOf_cons {β : Type} (e : Page × β) (m : List (Page × β)) :
    keysOf (e :: m) = e.1 :: keysOf m := rfl

theorem keysOf_append {β : Type} (m m' : List (Page × β)) :
    keysOf (m ++ m') = keysOf m ++ keysOf m' := List.map_append _ _ _

theorem dget?_eq_none {β : Type} {m : List (Page × β)} {k : Page}
    (h : k ∉ keysOf m) : dget? k m = none := by
  induction m with
  | nil => rfl
  | cons e rest ih =>
    rw [keysOf_cons] at h
    simp only [List.mem_cons, not_or] at h
    simp only [dget?]
    rw [if_neg (Ne.symm h.1)]
    exact ih h.2

theorem dget?_mem {β : Type} {m : List (Page × β)} {k : Page}
    (h : k ∈ keysOf m) : ∃ v, dget? k m = some v := by
  induction m with
  | nil => simp [keysOf] at h
  | cons e rest ih =>
    by_cases he : e.1 = k
    · exact ⟨e.2, by simp only [dget?]; rw [if_pos he]⟩
    · have hk : k ∈ keysOf rest := by
        rw [keysOf_cons] at h
        rcases List.mem_cons.mp h with h1 | h1
        · exact absurd h1.symm he
        · exact h1
      obtain ⟨v, hv⟩ := ih hk
      exact ⟨v, by simp only [dget?]; rw [if_neg he]; exact hv⟩

theorem dget?_of_mem_nodup {β : Type} {m : List (Page × β)} {k : Page} {v : β}
    (hm : (k, v) ∈ m) (hnd : (keysOf m).Nodup) : dget? k m = some v := by
  induction m with
  | nil => simp at hm
  | cons e rest ih =>
    rw [keysOf_cons] at hnd
    rcases List.mem_cons.mp hm with h | h
    · rw [← h]
      simp [dget?]
    · have hne : ¬ e.1 = k := by
        intro hk
        apply (List.nodup_cons.mp hnd).1
        rw [hk]
        exact List.mem_map.mpr ⟨(k, v), h, rfl⟩
      simp only [dget?]
      rw [if_neg hne]
      exact ih h (List.nodup_cons.mp hnd).2

theorem dictSet_append {m : Dict} {k : Page} (v : ℚ) (h : k ∉ keysOf m) :
    dictSet m k v = m ++ [(k, v)] := by
  induction m with
  | nil => rfl
  | cons e rest ih =>
    rw [keysOf_cons] at h
    simp only [List.mem_cons, not_or] at h
    simp only [dictSet]
    rw [if_neg (Ne.symm h.1), ih h.2]
    rfl

theorem keysOf_dictSet_of_mem {m : Dict} {k : Page} (v : ℚ)
    (h : k ∈ keysOf m) : keysOf (dictSet m k v) = keysOf m := by
  induction m with
  | nil => simp [keysOf] at h
  | cons e rest ih =>
    by_cases he : e.1 = k
    · simp only [dictSet]
      rw [if_pos he]
      simp [keysOf_cons, he]
    · have hk : k ∈ keysOf rest := by
        rw [keysOf_cons] at h
        rcases List.mem_cons.mp h with h1 | h1
        · exact absurd h1.symm he
        · exact h1
      simp only [dictSet]
      rw [if_neg he]
      rw [keysOf_cons, keysOf_cons, ih hk]

theorem mem_keysOf_dictSet {m : Dict} {k x : Page} {v : ℚ}
    (h : x ∈ keysOf (dictSet m k v)) : x = k ∨ x ∈ keysOf m := by
  induction m with
  | nil =>
    simp [dictSet, keysOf] at h
    exact Or.inl h
  | cons e rest ih =>
    by_cases he : e.1 = k
    · simp only [dictSet] at h
      rw [if_pos he] at h
      rw [keysOf_cons] at h
      rcases List.mem_cons.mp h with h1 | h1
      · exact Or.inl h1
      · right
        rw [keysOf_cons]
        exact List.mem_cons.mpr (Or.inr h1)
    · simp only [dictSet] at h
      rw [if_neg he] at h
      rw [keysOf_cons] at h
      rcases List.mem_cons.mp h with h1 | h1
      · right
        rw [keysOf_cons]
        exact List.mem_cons.mpr (Or.inl h1)
      · rcases ih h1 with h2 | h2
        · exact Or.inl h2
        · right
          rw [keysOf_cons]
          exact List.mem_cons.mpr (Or.inr h2)

theorem sumValues_nil : sumValues [] = 0 := rfl

theorem sumValues_cons (e : Page × ℚ) (m : Dict) :
    sumValues (e :: m) = e.2 + sumValues m := by
  simp [sumValues]

theorem sumValues_dictSet (m : Dict) (k : Page) (v : ℚ) :
    sumValues (dictSet m k v) = sumValues m + v - (dget? k m).getD 0 := by
  induction m with
  | nil => simp [dictSet, sumValues, dget?]
  | cons e rest ih =>
    by_cases he : e.1 = k
    · simp only [dictSet, dget?]
      rw [if_pos he, if_pos he]
      rw [sumValues_cons, sumValues_cons]
      simp
      ring
    · simp only [dictSet, dget?]
      rw [if_neg he, if_neg he]
      rw [sumValues_cons, sumValues_cons, ih]
      ring

/-! Closed form of the `transition_model` fold. -/

theorem tmStep_fresh (outl : List Page) (n : Nat) (d : ℚ) (acc : Dict)
    (k : Page) (h : k ∉ keysOf acc) :
    tmStep outl n d acc k = acc ++ [(k, tmVal outl n d k)] := by
  by_cases hk : k ∈ outl
  · simp only [tmStep, tmVal, dget?_eq_none h, if_pos hk]
    exact dictSet_append _ h
  · simp only [tmStep, tmVal, dget?_eq_none h, if_neg hk]
    exact dictSet_append _ h

theorem tmFoldl_eq (outl : List Page) (n : Nat) (d : ℚ) :
    ∀ (ks : List Page) (acc : Dict), ks.Nodup →
      (∀ k ∈ ks, k ∉ keysOf acc) →
      ks.foldl (tmStep outl n d) acc =
        acc ++ ks.map (fun k => (k, tmVal outl n d k)) := by
  intro ks
  induction ks with
  | nil => intro acc _ _; simp
  | cons k ks ih =>
    intro acc hnd hfresh
    simp only [List.foldl_cons, List.map_cons]
    rw [tmStep_fresh outl n d acc k (hfresh k (List.mem_cons_self k ks))]
    rw [ih (acc ++ [(k, tmVal outl n d k)]) (List.nodup_cons.mp hnd).2 ?fresh]
    · simp
    case fresh =>
      intro k' hk'
      rw [keysOf_append]
      simp only [List.mem_append, not_or]
      constructor
      · exact hfresh k' (List.mem_cons_of_mem _ hk')
      · intro h1
        simp [keysOf] at h1
        exact (List.nodup_cons.mp hnd).1 (h1 ▸ hk')

theorem transition_model_eq {corpus : Corpus} {page : Page}
    {outl : List Page} (d : ℚ) (hnd : (keysOf corpus).Nodup)
    (h : dget? page corpus = some outl) :
    transition_model corpus page d =
      some ((keysOf corpus).map
        (fun k => (k, tmVal outl corpus.length d k))) := by
  simp only [transition_model, h]
  rw [tmFoldl_eq outl corpus.length d (keysOf corpus) [] hnd
    (by intro k _; simp [keysOf])]
  simp

theorem dget?_map_self (f : Page → ℚ) (l : List Page) (q : Page) :
    dget? q (l.map (fun k => (k, f k))) =
      if q ∈ l then some (f q) else none := by
  induction l with
  | nil => simp [dget?]
  | cons k l ih =>
    simp only [List.map_cons, dget?]
    by_cases hk : k = q
    · rw [if_pos hk]
      subst hk
      simp
    · rw [if_neg hk, ih]
      have hqk : ¬ q = k := fun h => hk h.symm
      simp [List.mem_cons, hqk]

theorem keysOf_map_self (f : Page → ℚ) (l : List Page) :
    keysOf (l.map (fun k => (k, f k))) = l := by
  induction l with
  | nil => rfl
  | cons k l ih => simp_all [keysOf]

theorem keysOf_map_fst (corpus : Corpus) (g : Page × List Page → ℚ) :
    keysOf (corpus.map (fun e => (e.1, g e))) = keysOf corpus := by
  induction corpus with
  | nil => rfl
  | cons e rest ih => simp_all [keysOf]

/-! Sampling estimator lemmas. -/

theorem sumValues_tallyAdd (t : Dict) (p : Page) :
    sumValues (tallyAdd t p) = sumValues t + 1 := by
  unfold tallyAdd
  cases h : dget? p t with
  | none => rw [sumValues_dictSet, h]; simp
  | some v => rw [sumValues_dictSet, h]; simp; ring

theorem mem_keysOf_tallyAdd {t : Dict} {p x : Page}
    (h : x ∈ keysOf (tallyAdd t p)) : x = p ∨ x ∈ keysOf t := by
  unfold tallyAdd at h
  cases hp : dget? p t with
  | none => rw [hp] at h; exact mem_keysOf_dictSet h
  | some v => rw [hp] at h; exact mem_keysOf_dictSet h

theorem pickAux_mem : ∀ (l : Dict) (t : ℚ), l ≠ [] → pickAux l t ∈ keysOf l := by
  intro l
  induction l with
  | nil => intro t h; exact absurd rfl h
  | cons e rest ih =>
    intro t _
    cases rest with
    | nil => simp [pickAux, keysOf]
    | cons e2 rest2 =>
      by_cases hlt : t < e.2
      · simp [pickAux, hlt, keysOf]
      · simp only [pickAux, if_neg hlt]
        rw [keysOf_cons]
        exact List.mem_cons.mpr (Or.inr (ih (t - e.2) (by simp)))

theorem choicesPick_mem {items : Dict} (r : ℚ) (h : items ≠ []) :
    ∃ p, choicesPick items r = some p ∧ p ∈ keysOf items := by
  cases items with
  | nil => exact absurd rfl h
  | cons e rest =>
    exact ⟨pickAux (e :: rest) (r * sumValues (e :: rest)), rfl,
      pickAux_mem _ _ (by simp)⟩

theorem sumValues_map_div (l : Dict) (c : ℚ) :
    sumValues (l.map (fun kv => (kv.1, kv.2 / c))) = sumValues l / c := by
  induction l with
  | nil => simp [sumValues]
  | cons e rest ih =>
    rw [List.map_cons, sumValues_cons, sumValues_cons, ih, add_div]

theorem sampleLoop_spec {corpus : Corpus} {d : ℚ} {rng : Rng}
    (hnd : (keysOf corpus).Nodup) (hne : corpus ≠ []) :
    ∀ (n i : Nat) (current : Page) (tally : Dict),
      current ∈ keysOf corpus →
      ∃ t, sampleLoop corpus d rng n i current tally = some t ∧
        sumValues t = sumValues tally + n ∧
        (∀ x ∈ keysOf t, x ∈ keysOf corpus ∨ x ∈ keysOf tally) := by
  intro n
  induction n with
  | zero =>
    intro i current tally _
    exact ⟨tally, rfl, by simp, fun x hx => Or.inr hx⟩
  | succ k ih =>
    intro i current tally hcur
    obtain ⟨outl, houtl⟩ := dget?_mem hcur
    have htm := transition_model_eq d hnd houtl
    have hkeys : keysOf ((keysOf corpus).map
        (fun k => (k, tmVal outl corpus.length d k))) = keysOf corpus :=
      keysOf_map_self _ _
    have hnonnil : (keysOf corpus).map
        (fun k => (k, tmVal outl corpus.length d k)) ≠ [] := by
      intro hcon
      apply hne
      have := congrArg List.length hcon
      simp [keysOf] at this
      exact this
    obtain ⟨next, hnext, hnextmem⟩ := choicesPick_mem (rng.draw i) hnonnil
    rw [hkeys] at hnextmem
    obtain ⟨t, ht, hsum, hsub⟩ := ih (i + 1) next (tallyAdd tally current) hnextmem
    refine ⟨t, ?_, ?_, ?_⟩
    · simp only [sampleLoop, htm, hnext]
      exact ht
    · rw [hsum, sumValues_tallyAdd]
      push_cast
      ring
    · intro x hx
      rcases hsub x hx with h | h
      · exact Or.inl h
      · rcases mem_keysOf_tallyAdd h with h1 | h1
        · exact Or.inl (h1 ▸ hcur)
        · exact Or.inr h1

/-! Iterative estimator lemmas. -/

theorem mem_linkedPages {corpus : Corpus} {page k : Page}
    (h : k ∈ linkedPages corpus page) :
    ∃ e, e ∈ corpus ∧ e.1 = k ∧ page ∈ e.2 := by
  unfold linkedPages at h
  obtain ⟨e, he, hek⟩ := List.mem_map.mp h
  exact ⟨e, (List.mem_filter.mp he).1, hek, by
    have := (List.mem_filter.mp he).2
    simpa using this⟩

theorem iterative_sum_foldl_isSome {corpus : Corpus} :
    ∀ (dist : Dict),
      (∀ pv ∈ dist, ∃ outl, dget? pv.1 corpus = some outl ∧ outl ≠ []) →
      ∀ a : ℚ, ∃ s,
        dist.foldl
          (fun s pv =>
            match s, dget? pv.1 corpus with
            | some acc, some outl =>
                if outl.length = 0 then none
                else some (acc + pv.2 / (outl.length : ℚ))
            | _, _ => none)
          (some a) = some s := by
  intro dist
  induction dist with
  | nil => intro _ a; exact ⟨a, rfl⟩
  | cons pv rest ih =>
    intro h a
    obtain ⟨outl, houtl, hne⟩ := h pv (List.mem_cons_self _ _)
    have hlen : ¬ outl.length = 0 := by
      simpa [List.length_eq_zero] using hne
    obtain ⟨s, hs⟩ := ih (fun q hq => h q (List.mem_cons_of_mem _ hq))
      (a + pv.2 / (outl.length : ℚ))
    refine ⟨s, ?_⟩
    rw [List.foldl_cons]
    simpa [houtl, hlen] using hs

theorem iterative_sum_isSome {corpus : Corpus} {dist : Dict}
    (h : ∀ pv ∈ dist, ∃ outl, dget? pv.1 corpus = some outl ∧ outl ≠ []) :
    ∃ s, iterative_sum dist corpus = some s :=
  iterative_sum_foldl_isSome dist h 0

theorem iteratePage_isSome {corpus : Corpus} (d : ℚ) (iterprob : Dict)
    (page : Page) (hnd : (keysOf corpus).Nodup) :
    ∃ m, iteratePage corpus d iterprob page =
      some (dictSet iterprob page
        ((1 - d) / (corpus.length : ℚ) + d * m)) ∧
      iterative_sum
        (iterprob.filter (fun kv => kv.1 ∈ linkedPages corpus page))
        corpus = some m := by
  have hgood : ∀ pv ∈ iterprob.filter
      (fun kv => kv.1 ∈ linkedPages corpus page),
      ∃ outl, dget? pv.1 corpus = some outl ∧ outl ≠ [] := by
    intro pv hpv
    have hlink : pv.1 ∈ linkedPages corpus page := by
      have := (List.mem_filter.mp hpv).2
      simpa using this
    obtain ⟨e, hec, hek, hpe⟩ := mem_linkedPages hlink
    refine ⟨e.2, ?_, fun hcon => by simp [hcon] at hpe⟩
    have : (pv.1, e.2) ∈ corpus := by
      rw [← hek]
      exact hec
    exact dget?_of_mem_nodup this hnd
  obtain ⟨s, hs⟩ := iterative_sum_isSome hgood
  exact ⟨s, by simp only [iteratePage, hs], hs⟩

theorem iteratePage_keys {corpus : Corpus} {d : ℚ} {m m' : Dict} {page : Page}
    (hmem : page ∈ keysOf m)
    (h : iteratePage corpus d m page = some m') :
    keysOf m' = keysOf m := by
  simp only [iteratePage] at h
  split at h
  · exact absurd h (by simp)
  · simp only [Option.some_inj] at h
    rw [← h]
    exact keysOf_dictSet_of_mem _ hmem

theorem sweep_foldlM_keys {corpus : Corpus} {d : ℚ} :
    ∀ (ks : List Page) (m r : Dict), (∀ p ∈ ks, p ∈ keysOf m) →
      List.foldlM (fun acc page => iteratePage corpus d acc page) m ks =
        some r →
      keysOf r = keysOf m := by
  intro ks
  induction ks with
  | nil =>
    intro m r _ h
    simp [List.foldlM] at h
    rw [h]
  | cons k ks ih =>
    intro m r hmem h
    rw [List.foldlM_cons] at h
    cases h1 : iteratePage corpus d m k with
    | none => rw [h1] at h; simp at h
    | some m1 =>
      rw [h1] at h
      simp only [Option.bind_eq_bind, Option.some_bind] at h
      have hk1 : keysOf m1 = keysOf m :=
        iteratePage_keys (hmem k (List.mem_cons_self _ _)) h1
      have := ih m1 r (fun p hp => hk1 ▸ hmem p (List.mem_cons_of_mem _ hp)) h
      rw [this, hk1]

theorem sweepAll_keys {corpus : Corpus} {d : ℚ} {m r : Dict}
    (h : sweepAll corpus d m = some r) : keysOf r = keysOf m :=
  sweep_foldlM_keys (keysOf m) m r (fun _ hp => hp) h

theorem mapM_keys {f : Page × ℚ → Option (Page × ℚ)}
    (hf : ∀ kv kv', f kv = some kv' → kv'.1 = kv.1) :
    ∀ {l l' : Dict}, l.mapM f = some l' → keysOf l' = keysOf l := by
  intro l
  induction l with
  | nil =>
    intro l' h
    have h0 : ([] : Dict).mapM f = some [] := rfl
    rw [h0] at h
    simp only [Option.some_inj] at h
    rw [← h]
  | cons e rest ih =>
    intro l' h
    rw [List.mapM_cons] at h
    cases hfe : f e with
    | none => rw [hfe] at h; simp at h
    | some e' =>
      rw [hfe] at h
      cases hr : rest.mapM f with
      | none => rw [hr] at h; simp at h
      | some rest' =>
        rw [hr] at h
        simp at h
        rw [← h, keysOf_cons, keysOf_cons, ih hr, hf e e' hfe]

theorem mapM_norm_keys {t : ℚ} {l l' : Dict}
    (h : l.mapM (fun kv => if t = 0 then none else some (kv.1, kv.2 / t)) =
      some l') :
    keysOf l' = keysOf l := by
  refine mapM_keys ?_ h
  intro kv kv' hkv
  by_cases ht : t = 0
  · simp [ht] at hkv
  · simp only [if_neg ht, Option.some_inj] at hkv
    rw [← hkv]

theorem iterate_loop_keys {corpus : Corpus} {d : ℚ} :
    ∀ (fuel : Nat) {m r : Dict},
      iterate_loop corpus d fuel m = some r → keysOf r = keysOf m := by
  intro fuel
  induction fuel with
  | zero => intro m r h; simp [iterate_loop] at h
  | succ f ih =>
    intro m r h
    simp only [iterate_loop] at h
    cases h1 : sweepAll corpus d m with
    | none => rw [h1] at h; simp at h
    | some p1 =>
      rw [h1] at h
      simp only at h
      cases h2 : p1.mapM (fun kv =>
          if sumValues p1 = 0 then none else some (kv.1, kv.2 / sumValues p1)) with
      | none => rw [h2] at h; simp at h
      | some p2 =>
        rw [h2] at h
        simp only at h
        cases h3 : maxList ((keysOf p2).map
            (fun page => |dget p2 page - dget m page|)) with
        | none => rw [h3] at h; simp at h
        | some mx =>
          rw [h3] at h
          simp only at h
          have hp2 : keysOf p2 = keysOf m := by
            rw [mapM_norm_keys h2, sweepAll_keys h1]
          by_cases hge : mx ≥ 0.001
          · rw [if_pos hge] at h
            rw [ih h, hp2]
          · rw [if_neg hge] at h
            simp at h
            rw [← h]
            exact hp2

/-! Remaining helper lemmas. -/

theorem getD_mem : ∀ (l : List Page) (i : Nat) (dflt : Page),
    i < l.length → l.getD i dflt ∈ l := by
  intro l
  induction l with
  | nil => intro i dflt h; simp at h
  | cons x xs ih =>
    intro i dflt h
    cases i with
    | zero => simp [List.getD_cons_zero]
    | succ j =>
      rw [List.getD_cons_succ]
      exact List.mem_cons_of_mem _ (ih j dflt (by simpa using h))

theorem keysOf_map_entry (l : Dict) (g : Page × ℚ → ℚ) :
    keysOf (l.map (fun kv => (kv.1, g kv))) = keysOf l := by
  induction l with
  | nil => rfl
  | cons e rest ih => simp_all [keysOf]

/-! The claims. -/

/-- Claim C1 is violated by the code: for the dangling page "a" of
`corpusD` (2 pages, damping 17/20) `transition_model` assigns
`(1 - damping)/N = 3/40` to every page, not the uniform `1/N = 1/2`
the specification requires, because the code has no empty-outlinks
branch. -/
theorem C1_transition_dangling_not_uniform :
    transition_model corpusD "a" (17/20) = some [("a", 3/40), ("b", 3/40)]
    ∧ olookup "a" (transition_model corpusD "a" (17/20)) ≠ some (1/2) := by
  have h1 : transition_model corpusD "a" (17/20) =
      some [("a", 3/40), ("b", 3/40)] := by
    simp +decide [transition_model, tmStep, dget?, dictSet, keysOf, corpusD]
    norm_num
  refine ⟨h1, ?_⟩
  rw [h1]
  simp [olookup, dget?]
  norm_num

/-- Claim C2 is violated by the code: on the dangling page "a" of
`corpusD` the values of the distribution returned by `transition_model`
sum to `1 - damping = 3/20`, not 1, even though `corpusD` satisfies the
Link Graph invariants. -/
theorem C2_transition_sum_not_one :
    Option.map sumValues (transition_model corpusD "a" (17/20)) = some (3/20)
    ∧ ((3/20 : ℚ) ≠ 1) := by
  refine ⟨?_, by norm_num⟩
  simp +decide [transition_model, tmStep, dget?, dictSet, keysOf, corpusD,
    sumValues]
  norm_num

/-- Claim C3 is violated by the code: in the update sweep of
`iterate_pagerank` on `corpusD` (dangling page "a", damping 17/20,
ranks at 1/2), page "b" receives only the teleport term `3/40`; the
dangling page contributes nothing, instead of the `rank[a]/N = 1/4`
inside the damped sum that the specification requires (which would give
`(1-d)/2 + d/4`). -/
theorem C3_iterate_dangling_contributes_nothing :
    sweepAll corpusD (17/20) init2 = some [("a", 1/2), ("b", 3/40)]
    ∧ ((3/40 : ℚ) ≠ (1 - 17/20) / 2 + (17/20) * ((1/2) / 2)) := by
  refine ⟨?_, by norm_num⟩
  simp +decide [sweepAll, keysOf, iteratePage, linkedPages, iterative_sum,
    dget?, dictSet, corpusD, init2, List.foldlM]
  norm_num

/-- Claim C4 is violated by the code: one sweep of `iterate_pagerank` on
`corpus3` (damping 17/20, ranks at 1/3) updates `iterprob` in place, so
page "b" reads page "a"'s already-updated rank and gets `689/1200`,
while the simultaneous (Jacobi) sweep the specification prescribes gives
`1/3`; the in-place sweep does not equal the simultaneous sweep. -/
theorem C4_sweep_reads_partial_updates :
    sweepAll corpus3 (17/20) init3 =
      some [("a", 37/60), ("b", 689/1200), ("c", 1/20)]
    ∧ sweepSimultaneous corpus3 (17/20) init3 =
      [("a", 37/60), ("b", 1/3), ("c", 1/20)]
    ∧ sweepAll corpus3 (17/20) init3 ≠
      some (sweepSimultaneous corpus3 (17/20) init3) := by
  have h1 : sweepAll corpus3 (17/20) init3 =
      some [("a", 37/60), ("b", 689/1200), ("c", 1/20)] := by
    simp +decide [sweepAll, keysOf, iteratePage, linkedPages, iterative_sum,
      dget?, dictSet, corpus3, init3, List.foldlM]
    norm_num
  have h2 : sweepSimultaneous corpus3 (17/20) init3 =
      [("a", 37/60), ("b", 1/3), ("c", 1/20)] := by
    simp +decide [sweepSimultaneous, dget, dget?, corpus3, init3]
    norm_num
  refine ⟨h1, h2, ?_⟩
  rw [h1, h2]
  intro hcon
  simp at hcon
  norm_num at hcon

/-- Claim C5 is violated by the code: called with damping factor
`3/2 ∉ [0,1]`, `transition_model` does not fail fast; it returns a value
map (with a negative entry) instead of raising an
InvalidParameter/InvalidInput error. -/
theorem C5_counterexample_returns_map :
    transition_model corpus2 "a" (3/2) = some [("a", -(1/4)), ("b", 5/4)] := by
  simp +decide [transition_model, tmStep, dget?, dictSet, keysOf, corpus2]
  norm_num

/-- Claim C5 amended: the code performs no parameter validation.
`transition_model` returns a value map for every damping factor whenever
the page is a graph key; on an empty graph `iterate_pagerank` fails only
through the builtin error of `max` on an empty sequence and
`sample_pagerank` through `random.sample` on an empty population, never
by reporting InvalidParameter. -/
theorem C5_no_validation :
    (∀ (corpus : Corpus) (page : Page) (outl : List Page) (d : ℚ),
        dget? page corpus = some outl → transition_model corpus page d ≠ none)
    ∧ (∀ (d : ℚ) (fuel : Nat), iterate_pagerank [] d fuel = none)
    ∧ (∀ (d : ℚ) (n : Nat) (rng : Rng), sample_pagerank [] d n rng = none) := by
  refine ⟨?_, ?_, ?_⟩
  · intro corpus page outl d h
    simp [transition_model, h]
  · intro d fuel
    cases fuel with
    | zero => rfl
    | succ f => rfl
  · intro d n rng
    rfl

/-- Witness for the amended claim C5: `transition_model` on `corpus2`
with out-of-range damping 3/2 returns a map rather than failing. -/
theorem C5_no_validation_witness :
    transition_model corpus2 "a" (3/2) ≠ none :=
  C5_no_validation.1 corpus2 "a" ["b"] (3/2) rfl

/-- Claim C6 confirmed: for a valid corpus and a page with non-empty
outlinks `outl`, `transition_model` gives every corpus page the base
probability `(1-d)/N`, gives every outlink the extra `d/|outl|` on top
of it, and assigns nothing to pages outside the corpus. -/
theorem C6_transition_linked_distribution (corpus : Corpus) (page : Page)
    (outl : List Page) (d : ℚ)
    (hnd : (keysOf corpus).Nodup)
    (hpage : dget? page corpus = some outl)
    (hne : outl ≠ [])
    (hclosed : ∀ l ∈ outl, l ∈ keysOf corpus)
    (hd0 : 0 ≤ d) (hd1 : d ≤ 1) :
    (∀ q ∈ keysOf corpus,
        olookup q (transition_model corpus page d) =
          some ((1 - d) * (1 / (corpus.length : ℚ)) +
            (if q ∈ outl then d * (1 / (outl.length : ℚ)) else 0)))
    ∧ (∀ l ∈ outl,
        olookup l (transition_model corpus page d) =
          some ((1 - d) * (1 / (corpus.length : ℚ)) +
            d * (1 / (outl.length : ℚ))))
    ∧ (∀ q, q ∉ keysOf corpus →
        olookup q (transition_model corpus page d) = none) := by
  have htm := transition_model_eq d hnd hpage
  have hmain : ∀ q ∈ keysOf corpus,
      olookup q (transition_model corpus page d) =
        some ((1 - d) * (1 / (corpus.length : ℚ)) +
          (if q ∈ outl then d * (1 / (outl.length : ℚ)) else 0)) := by
    intro q hq
    rw [olookup, htm]
    simp only [Option.some_bind]
    rw [dget?_map_self, if_pos hq]
    unfold tmVal
    by_cases hqo : q ∈ outl
    · rw [if_pos hqo, if_pos hqo]
      exact congrArg some (by ring)
    · rw [if_neg hqo, if_neg hqo]
      exact congrArg some (by ring)
  refine ⟨hmain, ?_, ?_⟩
  · intro l hl
    rw [hmain l (hclosed l hl), if_pos hl]
  · intro q hq
    rw [olookup, htm]
    simp only [Option.some_bind]
    rw [dget?_map_self, if_neg hq]

/-- Witness for claim C6 at `corpus2`, page "a", damping 17/20: the
outlink "b" receives base plus extra probability. -/
theorem C6_transition_linked_distribution_witness :
    olookup "b" (transition_model corpus2 "a" (17/20)) =
      some ((1 - 17/20) * (1 / (corpus2.length : ℚ)) +
        (if ("b" : Page) ∈ ["b"] then
          (17/20 : ℚ) * (1 / ((["b"] : List Page).length : ℚ)) else 0)) :=
  (C6_transition_linked_distribution corpus2 "a" ["b"] (17/20) (by decide)
    rfl (by decide) (by decide) (by norm_num) (by norm_num)).1 "b" (by decide)

/-- Claim C7 is violated by the code for `sample_pagerank`: with one
sample on the two-page `corpus2` (start page "a", damping 17/20) the
returned Rank Map has only the visited key "a"; the corpus key "b" is
missing from the output. -/
theorem C7_counterexample_missing_key :
    sample_pagerank corpus2 (17/20) 1 rng0 = some [("a", 1)]
    ∧ ("b" : Page) ∈ keysOf corpus2
    ∧ ("b" : Page) ∉ keysOf [(("a" : Page), (1 : ℚ))] := by
  refine ⟨?_, by decide, by decide⟩
  simp +decide [sample_pagerank, sampleLoop, tallyAdd, transition_model,
    tmStep, keysOf, dget?, dictSet, corpus2, rng0, choicesPick, pickAux,
    sumValues]

/-- Claim C7 amended: `iterate_pagerank`'s result carries exactly the
corpus key set, while `sample_pagerank`'s result carries only the keys of
visited pages — a subset of the corpus keys that can be proper. -/
theorem C7_keys_amended :
    (∀ (corpus : Corpus) (d : ℚ) (fuel : Nat) (m : Dict),
        iterate_pagerank corpus d fuel = some m → keysOf m = keysOf corpus)
    ∧ (∀ (corpus : Corpus) (d : ℚ) (n : Nat) (rng : Rng) (m : Dict),
        (keysOf corpus).Nodup → sample_pagerank corpus d n rng = some m →
          ∀ x ∈ keysOf m, x ∈ keysOf corpus) := by
  constructor
  · intro corpus d fuel m h
    have h1 := iterate_loop_keys fuel h
    rw [h1, keysOf_map_fst]
  · intro corpus d n rng m hnd h x hx
    cases corpus with
    | nil => simp [sample_pagerank] at h
    | cons e rest =>
      have hlen : 0 < (keysOf (e :: rest)).length := by simp [keysOf]
      have hstart : (keysOf (e :: rest)).getD
          (rng.startIdx % (keysOf (e :: rest)).length) e.1 ∈
            keysOf (e :: rest) :=
        getD_mem _ _ _ (Nat.mod_lt _ hlen)
      obtain ⟨t, ht, _, hsub⟩ := sampleLoop_spec hnd (by simp) n 0 _ [] hstart
      simp only [sample_pagerank] at h
      rw [ht] at h
      simp only [Option.map_some', Option.some_inj] at h
      rw [← h, keysOf_map_entry] at hx
      rcases hsub x hx with h1 | h1
      · exact h1
      · simp [keysOf] at h1

/-- Witness for the amended claim C7: on `corpus2` with damping 17/20 the
iterative estimator converges in one iteration to ranks (1/2, 1/2), and
the keys of that map are exactly the corpus keys. -/
theorem C7_keys_amended_witness :
    keysOf [(("a" : Page), (1 : ℚ)/2), ("b", 1/2)] = keysOf corpus2 :=
  C7_keys_amended.1 corpus2 (17/20) 1 [("a", 1/2), ("b", 1/2)] (by
    simp +decide [iterate_pagerank, iterate_loop, sweepAll, keysOf,
      iteratePage, linkedPages, iterative_sum, dget?, dget, dictSet,
      corpus2, List.foldlM, maxList, sumValues, List.mapM.loop]
    norm_num [dget?])

/-- Claim C8 confirmed: for every non-empty valid corpus, every damping
factor, every positive sample count and every random source,
`sample_pagerank` returns a Rank Map whose values sum to exactly 1:
one tally is recorded per sample and each tally is divided by `n`. -/
theorem C8_sample_sums_to_one (corpus : Corpus) (d : ℚ) (n : Nat) (rng : Rng)
    (hne : corpus ≠ []) (hnd : (keysOf corpus).Nodup) (hn : 0 < n)
    (hd0 : 0 ≤ d) (hd1 : d ≤ 1) :
    Option.map sumValues (sample_pagerank corpus d n rng) = some 1 := by
  cases corpus with
  | nil => exact absurd rfl hne
  | cons e rest =>
    have hlen : 0 < (keysOf (e :: rest)).length := by simp [keysOf]
    have hstart : (keysOf (e :: rest)).getD
        (rng.startIdx % (keysOf (e :: rest)).length) e.1 ∈
          keysOf (e :: rest) :=
      getD_mem _ _ _ (Nat.mod_lt _ hlen)
    obtain ⟨t, ht, hsum, _⟩ := sampleLoop_spec hnd (by simp) n 0 _ [] hstart
    simp only [sample_pagerank]
    rw [ht]
    simp only [Option.map_some']
    rw [Option.some_inj, sumValues_map_div, hsum, sumValues_nil]
    have hn0 : (n : ℚ) ≠ 0 := Nat.cast_ne_zero.mpr (Nat.pos_iff_ne_zero.mp hn)
    field_simp

/-- Witness for claim C8: two samples on `corpus2` with the concrete
random source `rng0` produce a map summing to 1. -/
theorem C8_sample_sums_to_one_witness :
    Option.map sumValues (sample_pagerank corpus2 (17/20) 2 rng0) = some 1 :=
  C8_sample_sums_to_one corpus2 (17/20) 2 rng0 (by decide) (by decide)
    (by decide) (by norm_num) (by norm_num)

/-- Claim C9 confirmed: `iterate_pagerank` reads no random state — with
the module's random-generator state made explicit, two calls on the same
corpus and damping factor return the same Rank Map whatever the hidden
state is at each call. -/
theorem C9_iterate_deterministic (corpus : Corpus) (d : ℚ) (fuel : Nat)
    (hne : corpus ≠ []) (hd0 : 0 ≤ d) (hd1 : d ≤ 1) (s1 s2 : Rng) :
    (iterate_pagerank_st corpus d fuel s1).1 =
      (iterate_pagerank_st corpus d fuel s2).1 := rfl

/-- Witness for claim C9 at `corpus2`, damping 17/20, two different
random-generator states. -/
theorem C9_iterate_deterministic_witness :
    (iterate_pagerank_st corpus2 (17/20) 3 rng0).1 =
      (iterate_pagerank_st corpus2 (17/20) 3 rng1).1 :=
  C9_iterate_deterministic corpus2 (17/20) 3 (by decide) (by norm_num)
    (by norm_num) rng0 rng1

/-- Claim C10 confirmed: every page placed in the distribution passed to
`iterative_sum` by `iterate_pagerank`'s update step links to `page`, so
its outlink set is a non-empty corpus entry and neither the
division-by-zero nor the missing-key error branch of `iterative_sum` is
reachable: the update step never fails. -/
theorem C10_iterative_sum_never_fails (corpus : Corpus) (d : ℚ)
    (iterprob : Dict) (page : Page) (hnd : (keysOf corpus).Nodup) :
    iterative_sum
        (iterprob.filter (fun kv => kv.1 ∈ linkedPages corpus page))
        corpus ≠ none
    ∧ iteratePage corpus d iterprob page ≠ none := by
  obtain ⟨s, hs1, hs2⟩ := iteratePage_isSome d iterprob page hnd
  constructor
  · rw [hs2]
    simp
  · rw [hs1]
    simp

/-- Witness for claim C10 at `corpus2`, ranks (1/2, 1/2), page "a". -/
theorem C10_iterative_sum_never_fails_witness :
    iterative_sum
        (init2.filter (fun kv => kv.1 ∈ linkedPages corpus2 "a"))
        corpus2 ≠ none
    ∧ iteratePage corpus2 (17/20) init2 "a" ≠ none :=
  C10_iterative_sum_never_fails corpus2 (17/20) init2 "a" (by decide)
